import Mathlib

/-!
Verification development for `zk_bridge_events_snapshot` (app.py).

The core pipeline (`fetch_logs`) takes a batch of raw log records fetched
from an RPC node, truncates it to `max_logs`, normalizes each record to
hex strings, sorts by the composite key (blockNumber, transactionHash,
logIndex), serializes to compact JSON with lexicographically sorted keys,
and hashes the encoding with keccak to obtain a commitment.  The range
resolution logic of `main` and the `--blocks` configuration check are also
embedded.  External collaborators (the RPC node, the keccak implementation
from web3.py) enter as explicit parameters: the fetched batch, the chain
tip, and a hash function `String → String`.
-/

/-- Lowercase hexadecimal digit for a value `0 ≤ n < 16`
(mirrors Python's hex rendering used by `Web3.to_hex`). -/
def hexDigitChar (n : Nat) : Char :=
  if n < 10 then Char.ofNat (48 + n) else Char.ofNat (87 + n)

/-- Two lowercase hex digits of one byte. -/
def byteHex (b : Nat) : String :=
  String.mk [hexDigitChar (b / 16 % 16), hexDigitChar (b % 16)]

/-- `Web3.to_hex` on a byte string: `0x`-prefixed lowercase hex,
two digits per byte. -/
def toHex (bs : List Nat) : String :=
  "0x" ++ String.join (bs.map byteHex)

/-- A raw log entry as returned by `w3.eth.get_logs`: integer block number
and log index, byte strings for the transaction hash, data and topics. -/
structure RawLogRecord where
  blockNumber : Nat
  transactionHash : List Nat
  logIndex : Nat
  data : List Nat
  topics : List (List Nat)
deriving DecidableEq

/-- A normalized log record as built in the loop of `fetch_logs`
(app.py lines 138-159): integers kept as integers, byte-like fields
rendered by `Web3.to_hex`. -/
structure LogRecord where
  blockNumber : Nat
  transactionHash : String
  logIndex : Nat
  data : String
  topics : List String
deriving DecidableEq

/-- The body of the normalization loop of `fetch_logs`. -/
def normalizeLog (lg : RawLogRecord) : LogRecord :=
  { blockNumber := lg.blockNumber
  , transactionHash := toHex lg.transactionHash
  , logIndex := lg.logIndex
  , data := toHex lg.data
  , topics := lg.topics.map toHex }

/-- `if max_logs > 0 and len(logs_raw) > max_logs: logs_raw = logs_raw[:max_logs]`
(app.py lines 126-131). -/
def truncateLogs (max_logs : Int) (logs_raw : List RawLogRecord) : List RawLogRecord :=
  if 0 < max_logs ∧ max_logs < (logs_raw.length : Int) then
    logs_raw.take max_logs.toNat
  else
    logs_raw

/-- The sort key of app.py line 161:
`key=lambda x: (x["blockNumber"], x["transactionHash"], x["logIndex"])`,
compared lexicographically as Python tuples. -/
def sortKey (r : LogRecord) : Nat ×ₗ (String ×ₗ Nat) :=
  toLex (r.blockNumber, toLex (r.transactionHash, r.logIndex))

/-- The comparison used by the (stable) sort of app.py line 161. -/
def recLe (a b : LogRecord) : Bool :=
  decide (sortKey a ≤ sortKey b)

/-- JSON escaping of a single character as done by `json.dumps` with its
default `ensure_ascii=True`. -/
def jsonEscapeChar (c : Char) : String :=
  if c = Char.ofNat 34 then "\\\""
  else if c = Char.ofNat 92 then "\\\\"
  else if c = Char.ofNat 10 then "\\n"
  else if c = Char.ofNat 13 then "\\r"
  else if c = Char.ofNat 9 then "\\t"
  else if c.toNat = 8 then "\\b"
  else if c.toNat = 12 then "\\f"
  else if c.toNat < 32 ∨ 126 < c.toNat then
    if c.toNat < 65536 then
      "\\u" ++ String.mk [hexDigitChar (c.toNat / 4096 % 16), hexDigitChar (c.toNat / 256 % 16),
        hexDigitChar (c.toNat / 16 % 16), hexDigitChar (c.toNat % 16)]
    else
      let n := c.toNat - 65536
      let hi := 55296 + n / 1024
      let lo := 56320 + n % 1024
      "\\u" ++ String.mk [hexDigitChar (hi / 4096 % 16), hexDigitChar (hi / 256 % 16),
        hexDigitChar (hi / 16 % 16), hexDigitChar (hi % 16)] ++
      "\\u" ++ String.mk [hexDigitChar (lo / 4096 % 16), hexDigitChar (lo / 256 % 16),
        hexDigitChar (lo / 16 % 16), hexDigitChar (lo % 16)]
  else String.singleton c

/-- JSON string literal as produced by `json.dumps`. -/
def jsonString (s : String) : String :=
  "\"" ++ String.join (s.data.map jsonEscapeChar) ++ "\""

/-- `json.dumps` of one normalized record dict with `sort_keys=True` and
`separators=(",", ":")` (app.py line 163).  The five keys in lexicographic
order are blockNumber, data, logIndex, topics, transactionHash. -/
def encodeRecord (r : LogRecord) : String :=
  "\x7b\"blockNumber\":" ++ toString r.blockNumber ++
  ",\"data\":" ++ jsonString r.data ++
  ",\"logIndex\":" ++ toString r.logIndex ++
  ",\"topics\":[" ++ String.intercalate "," (r.topics.map jsonString) ++
  "],\"transactionHash\":" ++ jsonString r.transactionHash ++ "\x7d"

/-- `json.dumps` of the list of record dicts (app.py line 163). -/
def encodeLogs (l : List LogRecord) : String :=
  "[" ++ String.intercalate "," (l.map encodeRecord) ++ "]"

/-- The running minimum of app.py lines 135, 146-147:
`if min_block_seen is None or bn < min_block_seen: min_block_seen = bn`. -/
def minBlockSeen (l : List RawLogRecord) : Option Nat :=
  l.foldl
    (fun acc lg =>
      match acc with
      | none => some lg.blockNumber
      | some m => some (if lg.blockNumber < m then lg.blockNumber else m))
    none

/-- The running maximum of app.py lines 136, 148-149. -/
def maxBlockSeen (l : List RawLogRecord) : Option Nat :=
  l.foldl
    (fun acc lg =>
      match acc with
      | none => some lg.blockNumber
      | some m => some (if m < lg.blockNumber then lg.blockNumber else m))
    none

/-- The set `tx_set` built by `tx_set.add(txh)` over the retained records
(app.py lines 134, 145). -/
def txSet (l : List RawLogRecord) : Finset String :=
  l.foldl (fun s lg => insert (toHex lg.transactionHash) s) ∅

/-- The `meta` dict assembled at app.py lines 166-177.  `elapsedSec` is
wall-clock timing of the external RPC call and is not modelled. -/
structure SnapshotMeta where
  fromBlockRequested : Int
  toBlockRequested : Int
  fromBlockEffective : Int
  toBlockEffective : Int
  logCount : Nat
  uniqueTxCount : Nat
  maxLogs : Int
  topic0Filter : Option String
  commitmentKeccak : String
deriving DecidableEq

/-- The value returned by `fetch_logs` (app.py lines 179-182). -/
structure Snapshot where
  meta : SnapshotMeta
  logs : List LogRecord
deriving DecidableEq

/-- The pure core of `fetch_logs` (app.py lines 81-182).  The RPC
collaborator enters as the fetched batch `logs_raw` and the live tip
`latest` (`w3.eth.block_number`, line 93); `keccak` stands for
`Web3.keccak(·).hex()`.  Address validation, the topic0 well-formedness
warning and the request parameters are transport concerns that do not
touch the returned value. -/
def fetch_logs (keccak : String → String) (from_block to_block : Int)
    (latest : Int) (topic0 : Option String) (max_logs : Int)
    (logs_raw : List RawLogRecord) : Snapshot :=
  let fb := if to_block < from_block then to_block else from_block
  let tb := if to_block < from_block then from_block else to_block
  let tb := min tb latest
  let retained := truncateLogs max_logs logs_raw
  let logs := (retained.map normalizeLog).mergeSort recLe
  let encoded := encodeLogs logs
  let commitment := keccak encoded
  { meta :=
    { fromBlockRequested := fb
    , toBlockRequested := tb
    , fromBlockEffective := match minBlockSeen retained with
        | some m => (m : Int)
        | none => fb
    , toBlockEffective := match maxBlockSeen retained with
        | some m => (m : Int)
        | none => tb
    , logCount := logs.length
    , uniqueTxCount := (txSet retained).card
    , maxLogs := max_logs
    , topic0Filter := topic0
    , commitmentKeccak := commitment }
  , logs := logs }

/-- Block-range resolution of `main` (app.py lines 255-262). -/
def resolveRange (from_block to_block : Option Int) (blocks tip : Int) :
    Int × Int :=
  match from_block, to_block with
  | none, none => (max 0 (tip - blocks + 1), tip)
  | f?, t? =>
    let tb := t?.getD tip
    let fb := f?.getD (max 0 (tb - blocks + 1))
    (fb, tb)

/-- The facts supplied by the RPC node during one invocation: the chain
tip and the batch of logs it returns for the request. -/
structure Network where
  tip : Int
  logs : List RawLogRecord

/-- Configuration errors of `main`. -/
inductive MainError where
  | blocksNonPositive
deriving DecidableEq

/-- `main` after argument parsing (app.py lines 246-285): the `--blocks`
check precedes `connect`, so a failing check yields an error that does not
inspect the network at all. -/
def runMain (keccak : String → String) (blocks : Int)
    (from_block to_block : Option Int) (topic0 : Option String)
    (max_logs : Int) (net : Network) : Except MainError Snapshot :=
  if blocks ≤ 0 then
    .error .blocksNonPositive
  else
    let r := resolveRange from_block to_block blocks net.tip
    .ok (fetch_logs keccak r.1 r.2 net.tip topic0 max_logs net.logs)

/-- Sample raw record: block 0, transaction hash byte `0xaa`, log index 0,
data byte `0x01`. -/
def rawA : RawLogRecord :=
  { blockNumber := 0, transactionHash := [170], logIndex := 0, data := [1], topics := [] }

/-- Sample raw record sharing the full sort key of `rawA` (same block,
transaction hash and log index) but with different data byte `0x02`. -/
def rawB : RawLogRecord :=
  { blockNumber := 0, transactionHash := [170], logIndex := 0, data := [2], topics := [] }

/-- Sample raw record with a distinct sort key: block 1, transaction hash
byte `0xbb`. -/
def rawC : RawLogRecord :=
  { blockNumber := 1, transactionHash := [187], logIndex := 0, data := [3], topics := [] }

/-! ### Helper lemmas about the sort comparison -/

lemma recLe_trans : ∀ a b c : LogRecord,
    recLe a b = true → recLe b c = true → recLe a c = true := by
  intro a b c hab hbc
  simp only [recLe, decide_eq_true_eq] at *
  exact le_trans hab hbc

lemma recLe_total : ∀ a b : LogRecord, (recLe a b || recLe b a) = true := by
  intro a b
  simp only [recLe, Bool.or_eq_true, decide_eq_true_eq]
  exact le_total _ _

lemma sortKey_le_iff (a b : LogRecord) :
    sortKey a ≤ sortKey b ↔
      a.blockNumber < b.blockNumber ∨
        (a.blockNumber = b.blockNumber ∧
          (a.transactionHash < b.transactionHash ∨
            (a.transactionHash = b.transactionHash ∧ a.logIndex ≤ b.logIndex))) := by
  simp [sortKey, Prod.Lex.le_iff]

lemma sortKey_eq_iff (a b : LogRecord) :
    sortKey a = sortKey b ↔
      a.blockNumber = b.blockNumber ∧ a.transactionHash = b.transactionHash ∧
        a.logIndex = b.logIndex := by
  simp [sortKey, toLex, Equiv.refl, Prod.ext_iff]

/-- A stable sort of a list in which key-tied elements are equal is
independent of the input order. -/
lemma mergeSort_eq_of_perm_of_ties (l₁ l₂ : List LogRecord)
    (hperm : l₁.Perm l₂)
    (hties : ∀ a ∈ l₁, ∀ b ∈ l₁, sortKey a = sortKey b → a = b) :
    l₁.mergeSort recLe = l₂.mergeSort recLe := by
  haveI : IsAntisymm LogRecord (fun a b => sortKey a < sortKey b ∨ a = b) := by
    constructor
    intro a b hab hba
    rcases hab with h1 | h1
    · rcases hba with h2 | h2
      · exact absurd h2 (lt_asymm h1)
      · exact h2.symm
    · exact h1
  have hmk : ∀ (l : List LogRecord),
      (∀ a ∈ l, ∀ b ∈ l, sortKey a = sortKey b → a = b) →
      (l.mergeSort recLe).Sorted (fun a b => sortKey a < sortKey b ∨ a = b) := by
    intro l hl
    have h := List.sorted_mergeSort recLe_trans recLe_total l
    refine h.imp_of_mem ?_
    intro a b ha hb hr
    have ha' : a ∈ l := List.mem_mergeSort.mp ha
    have hb' : b ∈ l := List.mem_mergeSort.mp hb
    have hle : sortKey a ≤ sortKey b := by simpa [recLe] using hr
    rcases lt_or_eq_of_le hle with h' | h'
    · exact Or.inl h'
    · exact Or.inr (hl a ha' b hb' h')
  have hties₂ : ∀ a ∈ l₂, ∀ b ∈ l₂, sortKey a = sortKey b → a = b := by
    intro a ha b hb
    exact hties a (hperm.mem_iff.mpr ha) b (hperm.mem_iff.mpr hb)
  exact List.eq_of_perm_of_sorted
    ((List.mergeSort_perm l₁ recLe).trans
      (hperm.trans (List.mergeSort_perm l₂ recLe).symm))
    (hmk l₁ hties) (hmk l₂ hties₂)

/-! ### Helper lemmas about the running min/max and the tx set -/

lemma truncateLogs_subset (max_logs : Int) (l : List RawLogRecord) :
    ∀ x ∈ truncateLogs max_logs l, x ∈ l := by
  intro x hx
  unfold truncateLogs at hx
  split at hx
  · exact List.take_subset _ _ hx
  · exact hx

lemma minBlockSeen_aux (l : List RawLogRecord) : ∀ m : Nat,
    l.foldl
      (fun acc lg =>
        match acc with
        | none => some lg.blockNumber
        | some m => some (if lg.blockNumber < m then lg.blockNumber else m))
      (some m)
    = some ((l.map RawLogRecord.blockNumber).foldl min m) := by
  induction l with
  | nil => intro m; rfl
  | cons a l ih =>
    intro m
    simp only [List.foldl_cons, List.map_cons]
    have hmin : (if a.blockNumber < m then a.blockNumber else m) = min m a.blockNumber := by
      rcases Nat.lt_or_ge a.blockNumber m with h | h
      · rw [if_pos h, Nat.min_def, if_neg (by omega)]
      · rw [if_neg (by omega), Nat.min_def, if_pos h]
    rw [ih, hmin]

lemma minBlockSeen_eq (l : List RawLogRecord) :
    minBlockSeen l = (l.map RawLogRecord.blockNumber).min? := by
  cases l with
  | nil => rfl
  | cons a l =>
    simp only [minBlockSeen, List.foldl_cons, List.map_cons, List.min?_cons']
    exact minBlockSeen_aux l a.blockNumber

lemma maxBlockSeen_aux (l : List RawLogRecord) : ∀ m : Nat,
    l.foldl
      (fun acc lg =>
        match acc with
        | none => some lg.blockNumber
        | some m => some (if m < lg.blockNumber then lg.blockNumber else m))
      (some m)
    = some ((l.map RawLogRecord.blockNumber).foldl max m) := by
  induction l with
  | nil => intro m; rfl
  | cons a l ih =>
    intro m
    simp only [List.foldl_cons, List.map_cons]
    have hmax : (if m < a.blockNumber then a.blockNumber else m) = max m a.blockNumber := by
      rcases Nat.lt_or_ge m a.blockNumber with h | h
      · rw [if_pos h, Nat.max_def, if_pos (by omega)]
      · rw [if_neg (by omega), Nat.max_def]
        split <;> omega
    rw [ih, hmax]

lemma maxBlockSeen_eq (l : List RawLogRecord) :
    maxBlockSeen l = (l.map RawLogRecord.blockNumber).max? := by
  cases l with
  | nil => rfl
  | cons a l =>
    simp only [maxBlockSeen, List.foldl_cons, List.map_cons, List.max?_cons']
    exact maxBlockSeen_aux l a.blockNumber

lemma txSet_aux (l : List RawLogRecord) : ∀ s : Finset String,
    l.foldl (fun s lg => insert (toHex lg.transactionHash) s) s
      = s ∪ (l.map fun lg => toHex lg.transactionHash).toFinset := by
  induction l with
  | nil => intro s; simp
  | cons a l ih =>
    intro s
    simp only [List.foldl_cons, List.map_cons, List.toFinset_cons]
    rw [ih, Finset.insert_union, Finset.union_insert]

lemma txSet_eq (l : List RawLogRecord) :
    txSet l = (l.map fun lg => toHex lg.transactionHash).toFinset := by
  simp [txSet, txSet_aux]

/-! ### Claim theorems -/

/-- C1: the snapshot's commitment equals the keccak hash of the canonical
encoding of exactly the sorted retained sequence — the retained sequence
being the truncated batch, normalized and canonically sorted — so it is
never computed over unsorted or pre-truncation data and never omits a
retained record. -/
theorem commitment_is_hash_of_sorted_retained
    (keccak : String → String) (from_block to_block latest : Int)
    (topic0 : Option String) (max_logs : Int) (logs_raw : List RawLogRecord) :
    (fetch_logs keccak from_block to_block latest topic0 max_logs logs_raw).meta.commitmentKeccak
      = keccak (encodeLogs
          (fetch_logs keccak from_block to_block latest topic0 max_logs logs_raw).logs) ∧
    (fetch_logs keccak from_block to_block latest topic0 max_logs logs_raw).logs
      = ((truncateLogs max_logs logs_raw).map normalizeLog).mergeSort recLe :=
  ⟨rfl, rfl⟩

/-- C10: no deduplication is performed — every retained record, duplicates
included, keeps its multiplicity in the sorted output, is counted by
`logCount`, and hence contributes to the canonical encoding. -/
theorem no_deduplication
    (keccak : String → String) (from_block to_block latest : Int)
    (topic0 : Option String) (max_logs : Int) (logs_raw : List RawLogRecord)
    (v : LogRecord) :
    (fetch_logs keccak from_block to_block latest topic0 max_logs logs_raw).logs.count v
      = ((truncateLogs max_logs logs_raw).map normalizeLog).count v ∧
    (fetch_logs keccak from_block to_block latest topic0 max_logs logs_raw).meta.logCount
      = (truncateLogs max_logs logs_raw).length := by
  constructor
  · exact (List.mergeSort_perm _ recLe).count_eq v
  · show (((truncateLogs max_logs logs_raw).map normalizeLog).mergeSort recLe).length = _
    rw [List.length_mergeSort, List.length_map]

/-- C8: `uniqueTxCount` equals the number of distinct transaction hashes
among the retained records of the snapshot. -/
theorem uniqueTxCount_distinct
    (keccak : String → String) (from_block to_block latest : Int)
    (topic0 : Option String) (max_logs : Int) (logs_raw : List RawLogRecord) :
    (fetch_logs keccak from_block to_block latest topic0 max_logs logs_raw).meta.uniqueTxCount
      = ((fetch_logs keccak from_block to_block latest topic0 max_logs logs_raw).logs.map
          (fun r => r.transactionHash)).toFinset.card := by
  have hperm :
      ((fetch_logs keccak from_block to_block latest topic0 max_logs logs_raw).logs.map
        (fun r => r.transactionHash)).Perm
      ((((truncateLogs max_logs logs_raw).map normalizeLog)).map fun r => r.transactionHash) :=
    (List.mergeSort_perm _ recLe).map _
  rw [List.toFinset_eq_of_perm _ _ hperm]
  show (txSet (truncateLogs max_logs logs_raw)).card = _
  rw [txSet_eq, List.map_map]
  rfl

/-- C3: when `maxLogs > 0` and the batch exceeds it, exactly the first
`maxLogs` records in arrival order are retained and truncation happens
before the canonical sort; when `maxLogs = 0` or the batch fits, all
records are retained. -/
theorem truncation_policy
    (keccak : String → String) (from_block to_block latest : Int)
    (topic0 : Option String) (max_logs : Int) (logs_raw : List RawLogRecord) :
    ((0 < max_logs ∧ max_logs < (logs_raw.length : Int)) →
      truncateLogs max_logs logs_raw = logs_raw.take max_logs.toNat ∧
      (fetch_logs keccak from_block to_block latest topic0 max_logs logs_raw).logs
        = ((logs_raw.take max_logs.toNat).map normalizeLog).mergeSort recLe) ∧
    ((max_logs = 0 ∨ (logs_raw.length : Int) ≤ max_logs) →
      truncateLogs max_logs logs_raw = logs_raw ∧
      (fetch_logs keccak from_block to_block latest topic0 max_logs logs_raw).logs
        = (logs_raw.map normalizeLog).mergeSort recLe) := by
  constructor
  · intro h
    have ht : truncateLogs max_logs logs_raw = logs_raw.take max_logs.toNat := by
      simp [truncateLogs, h]
    refine ⟨ht, ?_⟩
    show ((truncateLogs max_logs logs_raw).map normalizeLog).mergeSort recLe = _
    rw [ht]
  · intro h
    have ht : truncateLogs max_logs logs_raw = logs_raw := by
      have h' : ¬ (0 < max_logs ∧ max_logs < (logs_raw.length : Int)) := by omega
      simp [truncateLogs, h']
    refine ⟨ht, ?_⟩
    show ((truncateLogs max_logs logs_raw).map normalizeLog).mergeSort recLe = _
    rw [ht]

/-- Witness for C3 at `maxLogs = 1` with a two-record batch. -/
theorem truncation_policy_witness :
    truncateLogs 1 [rawA, rawC] = [rawA, rawC].take (1 : Int).toNat ∧
    (fetch_logs (fun s => s) 0 0 0 none 1 [rawA, rawC]).logs
      = (([rawA, rawC].take (1 : Int).toNat).map normalizeLog).mergeSort recLe :=
  (truncation_policy (fun s => s) 0 0 0 none 1 [rawA, rawC]).1
    ⟨by decide, by decide⟩

/-- C4 counterexample: with only `fromBlock` supplied the resolved
`toBlock` is the chain tip, not a value derived from `fromBlock` and
`blocks` — it changes when only the tip changes. -/
theorem derive_toBlock_counterexample :
    (resolveRange (some 5) none 3 100).2 = 100 ∧
    (resolveRange (some 5) none 3 200).2 = 200 ∧
    (resolveRange (some 5) none 3 100).2 ≠ (resolveRange (some 5) none 3 200).2 ∧
    (resolveRange (some 5) none 3 100).2 ≠ 5 + 3 - 1 := by
  refine ⟨rfl, rfl, by decide, by decide⟩

/-- C4 amended: if only `toBlock` is given then
`fromBlock = max 0 (toBlock - blocks + 1)`; if only `fromBlock` is given
then `toBlock` is the current chain tip. -/
theorem derive_missing_bound
    (f t blocks tip : Int) :
    resolveRange none (some t) blocks tip = (max 0 (t - blocks + 1), t) ∧
    resolveRange (some f) none blocks tip = (f, tip) :=
  ⟨rfl, rfl⟩

/-- C9: `blocks ≤ 0` is rejected with a configuration error whose value is
the same whatever the network holds, i.e. the check precedes any network
access and no snapshot is produced. -/
theorem blocks_nonpositive_aborts
    (keccak : String → String) (blocks : Int)
    (from_block to_block : Option Int) (topic0 : Option String)
    (max_logs : Int) (hb : blocks ≤ 0) :
    ∀ net : Network,
      runMain keccak blocks from_block to_block topic0 max_logs net
        = .error .blocksNonPositive := by
  intro net
  simp [runMain, hb]

/-- Witness for C9 at `blocks = 0`. -/
theorem blocks_nonpositive_aborts_witness :
    runMain (fun s => s) 0 none none none 0 ⟨7, [rawA]⟩
      = .error .blocksNonPositive :=
  blocks_nonpositive_aborts (fun s => s) 0 none none none 0 (by decide) ⟨7, [rawA]⟩

/-- C5: the effective `toBlock` used for fetching never exceeds the tip;
under the RPC guarantee that returned records lie at or below the tip the
snapshot's `toBlockEffective` never exceeds it either; and an inverted
range never fails — it is silently normalized (swap, then clamp). -/
theorem range_clamping
    (keccak : String → String) (from_block to_block latest : Int)
    (topic0 : Option String) (max_logs : Int) (logs_raw : List RawLogRecord)
    (hbn : ∀ lg ∈ logs_raw, (lg.blockNumber : Int) ≤ latest) :
    (fetch_logs keccak from_block to_block latest topic0 max_logs logs_raw).meta.toBlockRequested
      ≤ latest ∧
    (fetch_logs keccak from_block to_block latest topic0 max_logs logs_raw).meta.toBlockEffective
      ≤ latest ∧
    (fetch_logs keccak from_block to_block latest topic0 max_logs logs_raw).meta.fromBlockRequested
      = min from_block to_block ∧
    (fetch_logs keccak from_block to_block latest topic0 max_logs logs_raw).meta.toBlockRequested
      = min (max from_block to_block) latest := by
  have hswap : (if to_block < from_block then from_block else to_block)
      = max from_block to_block := by
    split <;> omega
  have hswap' : (if to_block < from_block then to_block else from_block)
      = min from_block to_block := by
    split <;> omega
  refine ⟨?_, ?_, hswap', by rw [show (fetch_logs keccak from_block to_block latest topic0
      max_logs logs_raw).meta.toBlockRequested
      = min (if to_block < from_block then from_block else to_block) latest from rfl, hswap]⟩
  · exact min_le_right _ _
  · show (match maxBlockSeen (truncateLogs max_logs logs_raw) with
      | some m => (m : Int)
      | none => min (if to_block < from_block then from_block else to_block) latest) ≤ latest
    cases hmax : maxBlockSeen (truncateLogs max_logs logs_raw) with
    | none => exact min_le_right _ _
    | some m =>
      rw [maxBlockSeen_eq] at hmax
      obtain ⟨hmem, -⟩ := List.max?_eq_some_iff'.mp hmax
      obtain ⟨lg, hlg, rfl⟩ := List.mem_map.mp hmem
      exact hbn lg (truncateLogs_subset _ _ lg hlg)

/-- Witness for C5: inverted range `[5, 3]` with tip 4 and an empty batch. -/
theorem range_clamping_witness :
    (fetch_logs (fun s => s) 5 3 4 none 0 []).meta.toBlockRequested ≤ 4 ∧
    (fetch_logs (fun s => s) 5 3 4 none 0 []).meta.toBlockEffective ≤ 4 ∧
    (fetch_logs (fun s => s) 5 3 4 none 0 []).meta.fromBlockRequested = min 5 3 ∧
    (fetch_logs (fun s => s) 5 3 4 none 0 []).meta.toBlockRequested = min (max 5 3) 4 :=
  range_clamping (fun s => s) 5 3 4 none 0 []
    (by intro lg h; exact absurd h (List.not_mem_nil lg))

/-- C6: with at least one retained record, `fromBlockEffective` /
`toBlockEffective` are the minimum / maximum block number observed among
the retained records (attained and bounding); with zero retained records
they fall back to the resolved requested bounds. -/
theorem effective_range
    (keccak : String → String) (from_block to_block latest : Int)
    (topic0 : Option String) (max_logs : Int) (logs_raw : List RawLogRecord) :
    ((fetch_logs keccak from_block to_block latest topic0 max_logs logs_raw).logs ≠ [] →
      (∃ r ∈ (fetch_logs keccak from_block to_block latest topic0 max_logs logs_raw).logs,
        (r.blockNumber : Int)
          = (fetch_logs keccak from_block to_block latest topic0 max_logs
              logs_raw).meta.fromBlockEffective) ∧
      (∀ r ∈ (fetch_logs keccak from_block to_block latest topic0 max_logs logs_raw).logs,
        (fetch_logs keccak from_block to_block latest topic0 max_logs
            logs_raw).meta.fromBlockEffective ≤ (r.blockNumber : Int)) ∧
      (∃ r ∈ (fetch_logs keccak from_block to_block latest topic0 max_logs logs_raw).logs,
        (r.blockNumber : Int)
          = (fetch_logs keccak from_block to_block latest topic0 max_logs
              logs_raw).meta.toBlockEffective) ∧
      (∀ r ∈ (fetch_logs keccak from_block to_block latest topic0 max_logs logs_raw).logs,
        (r.blockNumber : Int)
          ≤ (fetch_logs keccak from_block to_block latest topic0 max_logs
              logs_raw).meta.toBlockEffective)) ∧
    ((fetch_logs keccak from_block to_block latest topic0 max_logs logs_raw).logs = [] →
      (fetch_logs keccak from_block to_block latest topic0 max_logs
          logs_raw).meta.fromBlockEffective
        = (fetch_logs keccak from_block to_block latest topic0 max_logs
            logs_raw).meta.fromBlockRequested ∧
      (fetch_logs keccak from_block to_block latest topic0 max_logs
          logs_raw).meta.toBlockEffective
        = (fetch_logs keccak from_block to_block latest topic0 max_logs
            logs_raw).meta.toBlockRequested) := by
  have hlogs : (fetch_logs keccak from_block to_block latest topic0 max_logs logs_raw).logs
      = ((truncateLogs max_logs logs_raw).map normalizeLog).mergeSort recLe := rfl
  constructor
  · intro hne
    have hret : truncateLogs max_logs logs_raw ≠ [] := by
      intro h
      apply hne
      rw [hlogs, h]
      simp
    cases hmin : minBlockSeen (truncateLogs max_logs logs_raw) with
    | none =>
      rw [minBlockSeen_eq, List.min?_eq_none_iff] at hmin
      exact absurd (List.map_eq_nil_iff.mp hmin) hret
    | some m =>
      cases hmax : maxBlockSeen (truncateLogs max_logs logs_raw) with
      | none =>
        rw [maxBlockSeen_eq, List.max?_eq_none_iff] at hmax
        exact absurd (List.map_eq_nil_iff.mp hmax) hret
      | some M =>
        rw [minBlockSeen_eq] at hmin
        rw [maxBlockSeen_eq] at hmax
        obtain ⟨hmmem, hmbound⟩ := List.min?_eq_some_iff'.mp hmin
        obtain ⟨hMmem, hMbound⟩ := List.max?_eq_some_iff'.mp hmax
        have hfe : (fetch_logs keccak from_block to_block latest topic0 max_logs
            logs_raw).meta.fromBlockEffective = (m : Int) := by
          show (match minBlockSeen (truncateLogs max_logs logs_raw) with
            | some m => (m : Int)
            | none => _) = (m : Int)
          rw [minBlockSeen_eq, hmin]
        have hte : (fetch_logs keccak from_block to_block latest topic0 max_logs
            logs_raw).meta.toBlockEffective = (M : Int) := by
          show (match maxBlockSeen (truncateLogs max_logs logs_raw) with
            | some m => (m : Int)
            | none => _) = (M : Int)
          rw [maxBlockSeen_eq, hmax]
        obtain ⟨lgm, hlgm, hlgmv⟩ := List.mem_map.mp hmmem
        obtain ⟨lgM, hlgM, hlgMv⟩ := List.mem_map.mp hMmem
        refine ⟨⟨normalizeLog lgm, ?_, ?_⟩, ?_, ⟨normalizeLog lgM, ?_, ?_⟩, ?_⟩
        · rw [hlogs]
          exact List.mem_mergeSort.mpr (List.mem_map_of_mem _ hlgm)
        · rw [hfe]
          show ((lgm.blockNumber : Nat) : Int) = (m : Int)
          exact_mod_cast hlgmv
        · intro r hr
          rw [hlogs] at hr
          obtain ⟨lg, hlg, rfl⟩ := List.mem_map.mp (List.mem_mergeSort.mp hr)
          rw [hfe]
          exact_mod_cast hmbound lg.blockNumber (List.mem_map_of_mem _ hlg)
        · rw [hlogs]
          exact List.mem_mergeSort.mpr (List.mem_map_of_mem _ hlgM)
        · rw [hte]
          show ((lgM.blockNumber : Nat) : Int) = (M : Int)
          exact_mod_cast hlgMv
        · intro r hr
          rw [hlogs] at hr
          obtain ⟨lg, hlg, rfl⟩ := List.mem_map.mp (List.mem_mergeSort.mp hr)
          rw [hte]
          exact_mod_cast hMbound lg.blockNumber (List.mem_map_of_mem _ hlg)
  · intro he
    have hret : truncateLogs max_logs logs_raw = [] := by
      have h := congrArg List.length he
      rw [hlogs] at h
      simp only [List.length_mergeSort, List.length_map, List.length_nil] at h
      exact List.length_eq_zero.mp h
    constructor
    · show (match minBlockSeen (truncateLogs max_logs logs_raw) with
        | some m => (m : Int)
        | none => (fetch_logs keccak from_block to_block latest topic0 max_logs
            logs_raw).meta.fromBlockRequested)
        = (fetch_logs keccak from_block to_block latest topic0 max_logs
            logs_raw).meta.fromBlockRequested
      rw [hret]
      rfl
    · show (match maxBlockSeen (truncateLogs max_logs logs_raw) with
        | some m => (m : Int)
        | none => (fetch_logs keccak from_block to_block latest topic0 max_logs
            logs_raw).meta.toBlockRequested)
        = (fetch_logs keccak from_block to_block latest topic0 max_logs
            logs_raw).meta.toBlockRequested
      rw [hret]
      rfl

/-- Witness for C6: zero retained records fall back to the resolved
requested bounds. -/
theorem effective_range_witness :
    (fetch_logs (fun s => s) 1 2 3 none 0 []).meta.fromBlockEffective
      = (fetch_logs (fun s => s) 1 2 3 none 0 []).meta.fromBlockRequested ∧
    (fetch_logs (fun s => s) 1 2 3 none 0 []).meta.toBlockEffective
      = (fetch_logs (fun s => s) 1 2 3 none 0 []).meta.toBlockRequested :=
  (effective_range (fun s => s) 1 2 3 none 0 []).2 (by simp [fetch_logs, truncateLogs])

/-- C7: the output sequence is ordered by the composite key
(blockNumber ascending, transactionHash ascending lexicographically,
logIndex ascending), and the sort is stable: two records sharing the full
key triple keep their relative pre-sort order. -/
theorem canonical_sort
    (keccak : String → String) (from_block to_block latest : Int)
    (topic0 : Option String) (max_logs : Int) (logs_raw : List RawLogRecord) :
    List.Pairwise (fun a b : LogRecord =>
        a.blockNumber < b.blockNumber ∨
          (a.blockNumber = b.blockNumber ∧
            (a.transactionHash < b.transactionHash ∨
              (a.transactionHash = b.transactionHash ∧ a.logIndex ≤ b.logIndex))))
      (fetch_logs keccak from_block to_block latest topic0 max_logs logs_raw).logs ∧
    (∀ a b : LogRecord,
      a.blockNumber = b.blockNumber → a.transactionHash = b.transactionHash →
      a.logIndex = b.logIndex →
      [a, b].Sublist ((truncateLogs max_logs logs_raw).map normalizeLog) →
      [a, b].Sublist
        (fetch_logs keccak from_block to_block latest topic0 max_logs logs_raw).logs) := by
  constructor
  · have h := List.sorted_mergeSort recLe_trans recLe_total
      ((truncateLogs max_logs logs_raw).map normalizeLog)
    refine h.imp ?_
    intro a b hr
    exact (sortKey_le_iff a b).mp (by simpa [recLe] using hr)
  · intro a b h1 h2 h3 hsub
    have hk : sortKey a = sortKey b := (sortKey_eq_iff a b).mpr ⟨h1, h2, h3⟩
    have hle : recLe a b = true := by simp [recLe, hk]
    exact List.pair_sublist_mergeSort recLe_trans recLe_total hle hsub

/-- Witness for C7: two key-tied records keep their arrival order in the
sorted output. -/
theorem canonical_sort_witness :
    [normalizeLog rawA, normalizeLog rawB].Sublist
      (fetch_logs (fun s => s) 0 0 0 none 0 [rawA, rawB]).logs := by
  have hsub : [normalizeLog rawA, normalizeLog rawB].Sublist
      ((truncateLogs 0 [rawA, rawB]).map normalizeLog) := by
    have h : (truncateLogs 0 [rawA, rawB]).map normalizeLog
        = [normalizeLog rawA, normalizeLog rawB] := by
      simp [truncateLogs]
    rw [h]
  exact (canonical_sort (fun s => s) 0 0 0 none 0 [rawA, rawB]).2
    (normalizeLog rawA) (normalizeLog rawB) rfl rfl rfl hsub

/-- C2 counterexample: `rawA` and `rawB` share the sort key triple but
differ in `data`; with no truncation (`maxLogs = 0`) the two arrival
orders yield different commitments, because the stable sort keeps the
key-tied records in arrival order. -/
theorem order_independence_counterexample :
    (fetch_logs (fun s => s) 0 0 0 none 0 [rawA, rawB]).meta.commitmentKeccak ≠
    (fetch_logs (fun s => s) 0 0 0 none 0 [rawB, rawA]).meta.commitmentKeccak := by
  have hkAB : sortKey (normalizeLog rawA) = sortKey (normalizeLog rawB) := rfl
  have hAB : recLe (normalizeLog rawA) (normalizeLog rawB) = true := by
    simp [recLe, hkAB]
  have hBA : recLe (normalizeLog rawB) (normalizeLog rawA) = true := by
    simp [recLe, hkAB]
  have h1 : [normalizeLog rawA, normalizeLog rawB].mergeSort recLe
      = [normalizeLog rawA, normalizeLog rawB] :=
    List.mergeSort_of_sorted (by simp [hAB])
  have h2 : [normalizeLog rawB, normalizeLog rawA].mergeSort recLe
      = [normalizeLog rawB, normalizeLog rawA] :=
    List.mergeSort_of_sorted (by simp [hBA])
  have hc1 : (fetch_logs (fun s => s) 0 0 0 none 0 [rawA, rawB]).meta.commitmentKeccak
      = encodeLogs ([normalizeLog rawA, normalizeLog rawB].mergeSort recLe) := rfl
  have hc2 : (fetch_logs (fun s => s) 0 0 0 none 0 [rawB, rawA]).meta.commitmentKeccak
      = encodeLogs ([normalizeLog rawB, normalizeLog rawA].mergeSort recLe) := rfl
  rw [hc1, hc2, h1, h2]
  decide

/-- C2 amended: reordering the raw input before normalization yields the
same commitment, provided no truncation occurs and any two records of the
batch whose normalized forms share the full sort key triple have equal
normalized forms (as is the case for genuine chain data, where
`(transactionHash, logIndex)` addresses a log uniquely). -/
theorem order_independence
    (keccak : String → String) (from_block to_block latest : Int)
    (topic0 : Option String) (max_logs : Int)
    (logs_raw₁ logs_raw₂ : List RawLogRecord)
    (hperm : logs_raw₁.Perm logs_raw₂)
    (hnotrunc : ¬ (0 < max_logs ∧ max_logs < (logs_raw₁.length : Int)))
    (hties : ∀ a ∈ logs_raw₁, ∀ b ∈ logs_raw₁,
      sortKey (normalizeLog a) = sortKey (normalizeLog b) →
      normalizeLog a = normalizeLog b) :
    (fetch_logs keccak from_block to_block latest topic0 max_logs logs_raw₁).meta.commitmentKeccak
      = (fetch_logs keccak from_block to_block latest topic0 max_logs
          logs_raw₂).meta.commitmentKeccak := by
  have ht₁ : truncateLogs max_logs logs_raw₁ = logs_raw₁ := by
    simp [truncateLogs, hnotrunc]
  have ht₂ : truncateLogs max_logs logs_raw₂ = logs_raw₂ := by
    have : ¬ (0 < max_logs ∧ max_logs < (logs_raw₂.length : Int)) := by
      rw [← hperm.length_eq]
      exact hnotrunc
    simp [truncateLogs, this]
  have hsort : (logs_raw₁.map normalizeLog).mergeSort recLe
      = (logs_raw₂.map normalizeLog).mergeSort recLe := by
    apply mergeSort_eq_of_perm_of_ties _ _ (hperm.map normalizeLog)
    intro a ha b hb
    obtain ⟨a', ha', rfl⟩ := List.mem_map.mp ha
    obtain ⟨b', hb', rfl⟩ := List.mem_map.mp hb
    exact hties a' ha' b' hb'
  show keccak (encodeLogs (((truncateLogs max_logs logs_raw₁).map normalizeLog).mergeSort recLe))
      = keccak (encodeLogs (((truncateLogs max_logs logs_raw₂).map normalizeLog).mergeSort recLe))
  rw [ht₁, ht₂, hsort]

/-- Witness for C2 (amended): two key-distinct records in either arrival
order produce the same commitment. -/
theorem order_independence_witness :
    (fetch_logs (fun s => s) 0 0 0 none 0 [rawA, rawC]).meta.commitmentKeccak
      = (fetch_logs (fun s => s) 0 0 0 none 0 [rawC, rawA]).meta.commitmentKeccak :=
  order_independence (fun s => s) 0 0 0 none 0 [rawA, rawC] [rawC, rawA]
    (by decide) (by decide) (by decide)
